import Mathlib

/-!
Verification of the caching and incremental-indexing subsystem of the
project-mind-mcp repository (src/cache_manager.py, src/memory_limited_indexer.py,
src/incremental_indexing.py, src/config.py).

Python dictionaries (and `collections.OrderedDict`) are shallowly embedded as
association lists in insertion order: the first element of the list is the
oldest (first-inserted / least-recently-moved) entry, matching `next(iter(d))`
and the iteration order used by `min(d.items(), ...)`.  Machine floats
(`time.time()`, `st_mtime`) are embedded as rationals, exceptions as
`Except`/explicit error flags, and the filesystem as a partial map from path
strings to file contents.
-/

/-- Lookup in a Python dict embedded as an association list
(`d[k]` / `k in d` / `d.get(k)`). -/
def dictLookup (key : String) : List (String × β) → Option β
  | [] => none
  | e :: l => if e.1 = key then some e.2 else dictLookup key l

/-- Deletion from a Python dict embedded as an association list (`del d[k]`).
Removes every entry whose key is `key`; on lists with no duplicate keys this
is exactly the single-entry deletion performed by `del`. -/
def dictErase (key : String) : List (String × β) → List (String × β)
  | [] => []
  | e :: l => if e.1 = key then dictErase key l else e :: dictErase key l

/-- Assignment `d[k] = v` on a Python dict embedded as an association list:
an existing key keeps its position and gets the new value; a new key is
appended at the end (Python dicts preserve insertion order). -/
def dictSet (key : String) (v : β) : List (String × β) → List (String × β)
  | [] => [(key, v)]
  | e :: l => if e.1 = key then (key, v) :: l else e :: dictSet key v l

/-- The keys of the embedded dict are pairwise distinct (true of every real
Python dict, and preserved by all operations modelled here). -/
def NodupKeys (l : List (String × β)) : Prop :=
  l.Pairwise (fun e e' => e.1 ≠ e'.1)

theorem dictLookup_eq_none_iff (key : String) (l : List (String × β)) :
    dictLookup key l = none ↔ ∀ e ∈ l, e.1 ≠ key := by
  induction l with
  | nil => simp [dictLookup]
  | cons e l ih =>
    by_cases h : e.1 = key
    · simp [dictLookup, h]
    · simp [dictLookup, h, ih]

theorem dictErase_eq_self (key : String) (l : List (String × β))
    (h : ∀ e ∈ l, e.1 ≠ key) : dictErase key l = l := by
  induction l with
  | nil => rfl
  | cons e l ih =>
    have he : e.1 ≠ key := h e (by simp)
    simp only [dictErase, if_neg he]
    rw [ih (fun e' he' => h e' (by simp [he']))]

theorem dictSet_of_absent (key : String) (v : β) (l : List (String × β))
    (h : ∀ e ∈ l, e.1 ≠ key) : dictSet key v l = l ++ [(key, v)] := by
  induction l with
  | nil => rfl
  | cons e l ih =>
    have he : e.1 ≠ key := h e (by simp)
    simp only [dictSet, if_neg he, List.cons_append, List.cons.injEq, true_and]
    exact ih (fun e' he' => h e' (by simp [he']))

/-- Decomposition of a nodup-key dict at a present key: the list splits as
`l1 ++ (key, v) :: l2` with `key` absent from `l1` and `l2`, and `dictErase`
removes exactly that entry. -/
theorem dictLookup_decomp (key : String) (l : List (String × β))
    (hnd : NodupKeys l) (v : β) (h : dictLookup key l = some v) :
    ∃ l1 l2, l = l1 ++ (key, v) :: l2 ∧
      dictErase key l = l1 ++ l2 ∧
      (∀ e ∈ l1, e.1 ≠ key) ∧ (∀ e ∈ l2, e.1 ≠ key) := by
  induction l with
  | nil => simp [dictLookup] at h
  | cons e l ih =>
    rw [NodupKeys, List.pairwise_cons] at hnd
    by_cases hk : e.1 = key
    · refine ⟨[], l, ?_, ?_, by simp, ?_⟩
      · simp only [dictLookup, if_pos hk] at h
        have : e = (key, v) := Prod.ext hk (Option.some.injEq _ _ ▸ h)
        simp [this]
      · have habs : ∀ e' ∈ l, e'.1 ≠ key :=
          fun e' he' hc => hnd.1 e' he' (by rw [hk, hc])
        simp only [dictErase, if_pos hk]
        exact dictErase_eq_self key l habs
      · exact fun e' he' hc => hnd.1 e' he' (by rw [hk, hc])
    · simp only [dictLookup, if_neg hk] at h
      obtain ⟨l1, l2, hsplit, herase, h1, h2⟩ := ih hnd.2 h
      refine ⟨e :: l1, l2, by simp [hsplit], ?_, ?_, h2⟩
      · simp only [dictErase, if_neg hk, herase, List.cons_append]
      · intro e' he'
        rcases List.mem_cons.mp he' with rfl | he'
        · exact hk
        · exact h1 e' he'

theorem dictSet_of_present (key : String) (v : β) (l1 l2 : List (String × β))
    (v0 : β) (h1 : ∀ e ∈ l1, e.1 ≠ key) :
    dictSet key v (l1 ++ (key, v0) :: l2) = l1 ++ (key, v) :: l2 := by
  induction l1 with
  | nil => simp [dictSet]
  | cons e l1 ih =>
    have he : e.1 ≠ key := h1 e (by simp)
    simp only [List.cons_append, dictSet, if_neg he, List.cons.injEq, true_and]
    exact ih (fun e' he' => h1 e' (by simp [he']))

theorem dictLookup_isSome_of_decomp (key : String) (l1 l2 : List (String × β))
    (v : β) (h1 : ∀ e ∈ l1, e.1 ≠ key) :
    dictLookup key (l1 ++ (key, v) :: l2) = some v := by
  induction l1 with
  | nil => simp [dictLookup]
  | cons e l1 ih =>
    have he : e.1 ≠ key := h1 e (by simp)
    simp only [List.cons_append, dictLookup, if_neg he]
    exact ih (fun e' he' => h1 e' (by simp [he']))

/-!
## `LRUCache` (src/cache_manager.py, lines 12-89)

`self.cache` is an `OrderedDict`; entries run from least-recently-used (front,
`next(iter(self.cache))`) to most-recently-used (back, `move_to_end`).
`capacity` is a Python `int` and may be non-positive, hence `Int`.
`put` is fallible: with `len(self.cache) >= self.capacity` and an *empty*
cache, `next(iter(self.cache))` raises `StopIteration`; this is the `Except`
error case.
-/

structure LRUCache (V : Type) where
  capacity : Int
  cache : List (String × V)
  hits : Nat
  misses : Nat
deriving Repr

def LRUCache.empty (V : Type) (capacity : Int) : LRUCache V :=
  { capacity := capacity, cache := [], hits := 0, misses := 0 }

/-- `LRUCache.get`: on a hit, `move_to_end` then return the value; on a miss
return `none`.  Returns the result together with the updated cache state. -/
def LRUCache.get (c : LRUCache V) (key : String) : Option V × LRUCache V :=
  match dictLookup key c.cache with
  | some v =>
      (some v,
       { c with
          cache := dictErase key c.cache ++ [(key, v)]
          hits := c.hits + 1 })
  | none => (none, { c with misses := c.misses + 1 })

/-- `LRUCache.put`: present key is moved to the MRU end and overwritten;
an absent key on a full cache first evicts `next(iter(self.cache))` (the
front).  On an empty cache with `len >= capacity` (possible only for
`capacity <= 0`) `next(iter(...))` raises `StopIteration`. -/
def LRUCache.put (c : LRUCache V) (key : String) (value : V) :
    Except Unit (LRUCache V) :=
  match dictLookup key c.cache with
  | some _ => .ok { c with cache := dictErase key c.cache ++ [(key, value)] }
  | none =>
      if c.capacity ≤ (c.cache.length : Int) then
        match c.cache with
        | [] => .error ()
        | _ :: rest => .ok { c with cache := rest ++ [(key, value)] }
      else
        .ok { c with cache := c.cache ++ [(key, value)] }

/-!
## Trace semantics for the LRU cache

To state the claim "the evicted key is the least recently touched one", the
cache is run against a sequence of `get`/`put` operations while recording, for
every key, the logical time of its last touch (a `get` hit or any `put` of
that key), exactly the access order maintained by the `OrderedDict`.
-/

inductive LRUOp where
  | get (key : String)
  | put (key : String) (value : Nat)

structure LRUTrace where
  c : LRUCache Nat
  clock : Nat
  lastTouch : String → Nat

def LRUTrace.init (capacity : Int) : LRUTrace :=
  { c := LRUCache.empty Nat capacity, clock := 0, lastTouch := fun _ => 0 }

/-- One operation against the cache, recording touch times.  A `get` touches
its key only on a hit; a `put` always touches its key.  A `put` that raises
(`StopIteration` from eviction on an empty cache) aborts the run. -/
def LRUTrace.step (s : LRUTrace) (op : LRUOp) : Except Unit LRUTrace :=
  match op with
  | .get key =>
      match dictLookup key s.c.cache with
      | some _ =>
          .ok { c := (s.c.get key).2, clock := s.clock + 1,
                lastTouch := Function.update s.lastTouch key s.clock }
      | none =>
          .ok { c := (s.c.get key).2, clock := s.clock + 1,
                lastTouch := s.lastTouch }
  | .put key value =>
      match s.c.put key value with
      | .error e => .error e
      | .ok c' =>
          .ok { c := c', clock := s.clock + 1,
                lastTouch := Function.update s.lastTouch key s.clock }

def LRUTrace.run (s : LRUTrace) : List LRUOp → Except Unit LRUTrace
  | [] => .ok s
  | op :: ops =>
      match s.step op with
      | .error e => .error e
      | .ok s' => s'.run ops

/-- Invariant tying the `OrderedDict` order to the touch history: the cache is
within capacity, and its entries are strictly increasing in last-touch time
(front = least recently touched), all touches lying in the past. -/
structure LRUInv (N : Nat) (s : LRUTrace) : Prop where
  cap : s.c.capacity = (N : Int)
  size : s.c.cache.length ≤ N
  sorted : s.c.cache.Pairwise (fun e e' => s.lastTouch e.1 < s.lastTouch e'.1)
  fresh : ∀ e ∈ s.c.cache, s.lastTouch e.1 < s.clock

theorem LRUInv.nodup {N : Nat} {s : LRUTrace} (h : LRUInv N s) :
    NodupKeys s.c.cache :=
  h.sorted.imp (fun hlt heq => absurd (heq ▸ hlt) (lt_irrefl _))

/-- Appending a freshly touched key to a recency-sorted list whose keys all
differ from it keeps the list recency-sorted under the updated touch map, and
all touches stay in the past of the advanced clock. -/
theorem lru_sorted_append (lt : String → Nat) (clock : Nat) (key : String)
    (x : V) (l : List (String × V))
    (hs : l.Pairwise (fun e e' => lt e.1 < lt e'.1))
    (hf : ∀ e ∈ l, lt e.1 < clock)
    (hk : ∀ e ∈ l, e.1 ≠ key) :
    (l ++ [(key, x)]).Pairwise
      (fun e e' => Function.update lt key clock e.1 <
        Function.update lt key clock e'.1) ∧
    (∀ e ∈ l ++ [(key, x)], Function.update lt key clock e.1 < clock + 1) := by
  constructor
  · rw [List.pairwise_append]
    refine ⟨?_, by simp, ?_⟩
    · refine hs.imp_of_mem ?_
      intro a b ha hb hr
      rwa [Function.update_noteq (hk _ ha), Function.update_noteq (hk _ hb)]
    · intro a ha b hb
      rcases List.mem_singleton.mp hb with rfl
      simp only [Function.update_same]
      rw [Function.update_noteq (hk _ ha)]
      exact hf _ ha
  · intro e he
    rcases List.mem_append.mp he with h | h
    · rw [Function.update_noteq (hk _ h)]
      exact lt_trans (hf _ h) (Nat.lt_succ_self _)
    · rcases List.mem_singleton.mp h with rfl
      simp only [Function.update_same]
      exact Nat.lt_succ_self _

theorem LRUInv.init (N : Nat) : LRUInv N (LRUTrace.init (N : Int)) := by
  constructor <;> simp [LRUTrace.init, LRUCache.empty]

/-- Every single operation from an invariant state with capacity at least 1
succeeds (no `StopIteration`) and re-establishes the invariant. -/
theorem LRUTrace.step_ok (N : Nat) (hN : 1 ≤ N) (s : LRUTrace)
    (hInv : LRUInv N s) (op : LRUOp) :
    ∃ s', s.step op = .ok s' ∧ LRUInv N s' := by
  cases op with
  | get key =>
    cases h : dictLookup key s.c.cache with
    | none =>
      refine ⟨{ c := (s.c.get key).2, clock := s.clock + 1,
                lastTouch := s.lastTouch }, ?_, ?_⟩
      · simp [LRUTrace.step, h]
      · have hget : (s.c.get key).2 = { s.c with misses := s.c.misses + 1 } := by
          simp [LRUCache.get, h]
        constructor
        · rw [hget]; exact hInv.cap
        · rw [hget]; exact hInv.size
        · rw [hget]; exact hInv.sorted
        · rw [hget]
          exact fun e he => lt_trans (hInv.fresh e he) (Nat.lt_succ_self _)
    | some v =>
      obtain ⟨l1, l2, hsplit, herase, h1, h2⟩ :=
        dictLookup_decomp key s.c.cache hInv.nodup v h
      have hget : (s.c.get key).2.cache = (l1 ++ l2) ++ [(key, v)] := by
        simp [LRUCache.get, h, herase]
      have hcap : (s.c.get key).2.capacity = s.c.capacity := by
        simp [LRUCache.get, h]
      have hmem : ∀ e ∈ l1 ++ l2, e ∈ s.c.cache := by
        intro e he
        rw [hsplit]
        rcases List.mem_append.mp he with h' | h'
        · exact List.mem_append.mpr (Or.inl h')
        · exact List.mem_append.mpr (Or.inr (List.mem_cons_of_mem _ h'))
      have hk12 : ∀ e ∈ l1 ++ l2, e.1 ≠ key := by
        intro e he
        rcases List.mem_append.mp he with h' | h'
        · exact h1 e h'
        · exact h2 e h'
      have hs12 : (l1 ++ l2).Pairwise
          (fun e e' => s.lastTouch e.1 < s.lastTouch e'.1) := by
        have hsor := hInv.sorted
        rw [hsplit] at hsor
        exact hsor.sublist
          (List.Sublist.append_left (List.sublist_cons_self _ _) l1)
      have hf12 : ∀ e ∈ l1 ++ l2, s.lastTouch e.1 < s.clock :=
        fun e he => hInv.fresh e (hmem e he)
      obtain ⟨hsorted', hfresh'⟩ :=
        lru_sorted_append s.lastTouch s.clock key v (l1 ++ l2) hs12 hf12 hk12
      refine ⟨{ c := (s.c.get key).2, clock := s.clock + 1,
                lastTouch := Function.update s.lastTouch key s.clock }, ?_, ?_⟩
      · simp [LRUTrace.step, h]
      · constructor
        · rw [hcap]; exact hInv.cap
        · have hlen : s.c.cache.length = l1.length + l2.length + 1 := by
            rw [hsplit]; simp; omega
          have : (s.c.get key).2.cache.length = s.c.cache.length := by
            rw [hget, hlen]; simp; omega
          rw [this]; exact hInv.size
        · rw [hget]; exact hsorted'
        · rw [hget]; exact hfresh'
  | put key value =>
    cases h : dictLookup key s.c.cache with
    | some v0 =>
      obtain ⟨l1, l2, hsplit, herase, h1, h2⟩ :=
        dictLookup_decomp key s.c.cache hInv.nodup v0 h
      have hput : s.c.put key value =
          .ok { s.c with cache := (l1 ++ l2) ++ [(key, value)] } := by
        simp [LRUCache.put, h, herase]
      have hmem : ∀ e ∈ l1 ++ l2, e ∈ s.c.cache := by
        intro e he
        rw [hsplit]
        rcases List.mem_append.mp he with h' | h'
        · exact List.mem_append.mpr (Or.inl h')
        · exact List.mem_append.mpr (Or.inr (List.mem_cons_of_mem _ h'))
      have hk12 : ∀ e ∈ l1 ++ l2, e.1 ≠ key := by
        intro e he
        rcases List.mem_append.mp he with h' | h'
        · exact h1 e h'
        · exact h2 e h'
      have hs12 : (l1 ++ l2).Pairwise
          (fun e e' => s.lastTouch e.1 < s.lastTouch e'.1) := by
        have hsor := hInv.sorted
        rw [hsplit] at hsor
        exact hsor.sublist
          (List.Sublist.append_left (List.sublist_cons_self _ _) l1)
      have hf12 : ∀ e ∈ l1 ++ l2, s.lastTouch e.1 < s.clock :=
        fun e he => hInv.fresh e (hmem e he)
      obtain ⟨hsorted', hfresh'⟩ :=
        lru_sorted_append s.lastTouch s.clock key value (l1 ++ l2) hs12 hf12 hk12
      refine ⟨{ c := { s.c with cache := (l1 ++ l2) ++ [(key, value)] },
                clock := s.clock + 1,
                lastTouch := Function.update s.lastTouch key s.clock }, ?_, ?_⟩
      · simp [LRUTrace.step, hput]
      · constructor
        · exact hInv.cap
        · have hlen : s.c.cache.length = l1.length + l2.length + 1 := by
            rw [hsplit]; simp; omega
          have hlen' : ((l1 ++ l2) ++ [(key, value)]).length = s.c.cache.length := by
            rw [hlen]; simp; omega
          show ((l1 ++ l2) ++ [(key, value)]).length ≤ N
          rw [hlen']; exact hInv.size
        · exact hsorted'
        · exact hfresh'
    | none =>
      have hknone : ∀ e ∈ s.c.cache, e.1 ≠ key :=
        (dictLookup_eq_none_iff key _).mp h
      by_cases hfull : s.c.capacity ≤ (s.c.cache.length : Int)
      · have hNle : N ≤ s.c.cache.length := by
          rw [hInv.cap] at hfull
          exact_mod_cast hfull
        cases hc : s.c.cache with
        | nil =>
          exfalso
          rw [hc] at hNle
          simp at hNle
          omega
        | cons e0 rest =>
          have hput : s.c.put key value =
              .ok { s.c with cache := rest ++ [(key, value)] } := by
            simp only [LRUCache.put, h]
            rw [if_pos hfull, hc]
          have hsrest : rest.Pairwise
              (fun e e' => s.lastTouch e.1 < s.lastTouch e'.1) := by
            have hsor := hInv.sorted
            rw [hc, List.pairwise_cons] at hsor
            exact hsor.2
          have hfrest : ∀ e ∈ rest, s.lastTouch e.1 < s.clock :=
            fun e he => hInv.fresh e (hc ▸ List.mem_cons_of_mem _ he)
          have hkrest : ∀ e ∈ rest, e.1 ≠ key :=
            fun e he => hknone e (hc ▸ List.mem_cons_of_mem _ he)
          obtain ⟨hsorted', hfresh'⟩ :=
            lru_sorted_append s.lastTouch s.clock key value rest hsrest hfrest hkrest
          refine ⟨{ c := { s.c with cache := rest ++ [(key, value)] },
                    clock := s.clock + 1,
                    lastTouch := Function.update s.lastTouch key s.clock }, ?_, ?_⟩
          · simp [LRUTrace.step, hput]
          · constructor
            · exact hInv.cap
            · show (rest ++ [(key, value)]).length ≤ N
              have : s.c.cache.length = rest.length + 1 := by rw [hc]; simp
              have hsz := hInv.size
              simp only [List.length_append, List.length_singleton]
              omega
            · exact hsorted'
            · exact hfresh'
      · have hlt : s.c.cache.length < N := by
          rw [hInv.cap] at hfull
          have := lt_of_not_le hfull
          exact_mod_cast this
        have hput : s.c.put key value =
            .ok { s.c with cache := s.c.cache ++ [(key, value)] } := by
          simp [LRUCache.put, h, if_neg hfull]
        obtain ⟨hsorted', hfresh'⟩ :=
          lru_sorted_append s.lastTouch s.clock key value s.c.cache
            hInv.sorted hInv.fresh hknone
        refine ⟨{ c := { s.c with cache := s.c.cache ++ [(key, value)] },
                  clock := s.clock + 1,
                  lastTouch := Function.update s.lastTouch key s.clock }, ?_, ?_⟩
        · simp [LRUTrace.step, hput]
        · constructor
          · exact hInv.cap
          · show (s.c.cache ++ [(key, value)]).length ≤ N
            simp only [List.length_append, List.length_singleton]
            omega
          · exact hsorted'
          · exact hfresh'

theorem LRUTrace.run_ok (N : Nat) (hN : 1 ≤ N) (ops : List LRUOp) :
    ∀ s, LRUInv N s → ∃ s', s.run ops = .ok s' ∧ LRUInv N s' := by
  induction ops with
  | nil => exact fun s hs => ⟨s, rfl, hs⟩
  | cons op ops ih =>
    intro s hs
    obtain ⟨s1, hstep, hinv1⟩ := LRUTrace.step_ok N hN s hs op
    obtain ⟨s', hrun, hinv'⟩ := ih s1 hinv1
    exact ⟨s', by simp [LRUTrace.run, hstep, hrun], hinv'⟩

/-- C2: for every LRU cache of capacity `N ≥ 1` and every sequence of
`get`/`put` operations run from the fresh cache: (1) every operation succeeds
and the cache holds at most `N` keys afterwards; (2) a `get` on a present key
returns its value and moves that key to the most-recently-used (last)
position; (3) a `put` of an absent key on a full cache evicts exactly the
front entry, which is the least recently touched key of the whole cache
(strictly earlier last touch, by `get`-hit/`put` access order, than every
other cached key). -/
theorem lru_cache_invariant_spec (N : Nat) (hN : 1 ≤ N) (ops : List LRUOp) :
    ∃ s : LRUTrace, (LRUTrace.init (N : Int)).run ops = .ok s ∧
      s.c.cache.length ≤ N ∧
      (∀ key v, dictLookup key s.c.cache = some v →
        (s.c.get key).1 = some v ∧
        ∃ pre, (s.c.get key).2.cache = pre ++ [(key, v)] ∧
          ∀ e ∈ pre, e.1 ≠ key) ∧
      (∀ key value, dictLookup key s.c.cache = none →
        N ≤ s.c.cache.length →
        ∃ e0 rest, s.c.cache = e0 :: rest ∧
          s.c.put key value =
            .ok { s.c with cache := rest ++ [(key, value)] } ∧
          ∀ e' ∈ rest, s.lastTouch e0.1 < s.lastTouch e'.1) := by
  obtain ⟨s, hrun, hinv⟩ :=
    LRUTrace.run_ok N hN ops (LRUTrace.init (N : Int)) (LRUInv.init N)
  refine ⟨s, hrun, hinv.size, ?_, ?_⟩
  · intro key v h
    obtain ⟨l1, l2, hsplit, herase, h1, h2⟩ :=
      dictLookup_decomp key s.c.cache hinv.nodup v h
    refine ⟨by simp [LRUCache.get, h], l1 ++ l2, ?_, ?_⟩
    · simp [LRUCache.get, h, herase]
    · intro e he
      rcases List.mem_append.mp he with h' | h'
      · exact h1 e h'
      · exact h2 e h'
  · intro key value h hfullN
    have hfull : s.c.capacity ≤ (s.c.cache.length : Int) := by
      rw [hinv.cap]
      exact_mod_cast hfullN
    cases hc : s.c.cache with
    | nil =>
      exfalso
      rw [hc] at hfullN
      simp at hfullN
      omega
    | cons e0 rest =>
      refine ⟨e0, rest, rfl, ?_, ?_⟩
      · simp only [LRUCache.put, h]
        rw [if_pos hfull, hc]
      · have hsor := hinv.sorted
        rw [hc, List.pairwise_cons] at hsor
        exact hsor.1

/-- Witness for C2 at `N = 2` and a concrete operation sequence. -/
theorem lru_cache_invariant_spec_witness :
    ∃ s : LRUTrace,
      (LRUTrace.init ((2 : Nat) : Int)).run
        [LRUOp.put "a" 1, LRUOp.put "b" 2, LRUOp.get "a"] = .ok s ∧
      s.c.cache.length ≤ 2 ∧
      (∀ key v, dictLookup key s.c.cache = some v →
        (s.c.get key).1 = some v ∧
        ∃ pre, (s.c.get key).2.cache = pre ++ [(key, v)] ∧
          ∀ e ∈ pre, e.1 ≠ key) ∧
      (∀ key value, dictLookup key s.c.cache = none →
        2 ≤ s.c.cache.length →
        ∃ e0 rest, s.c.cache = e0 :: rest ∧
          s.c.put key value =
            .ok { s.c with cache := rest ++ [(key, value)] } ∧
          ∀ e' ∈ rest, s.lastTouch e0.1 < s.lastTouch e'.1) :=
  lru_cache_invariant_spec 2 (by norm_num)
    [LRUOp.put "a" 1, LRUOp.put "b" 2, LRUOp.get "a"]

/-- C9: the code has no guard for `capacity <= 0`.  On a cache constructed
with capacity 0 the very first `put` reaches `next(iter(self.cache))` on an
empty `OrderedDict`, which raises `StopIteration` (the `.error` case of the
model): `put` does not terminate normally, contradicting the claim. -/
theorem lru_put_capacity_zero_raises :
    (LRUCache.empty Nat 0).put "a" 1 = .error () := by
  simp [LRUCache.put, LRUCache.empty, dictLookup]

/-!
## `TTLCache` (src/cache_manager.py, lines 92-207)

`self.cache` is a plain `dict[str, tuple[Any, float]]` in insertion order;
`time.time()` values are rationals.  `_evict_oldest` takes
`min(self.cache.items(), key=lambda x: x[1][1])` — Python's `min` keeps the
first item whose key compares strictly smaller, i.e. the first minimum in
iteration order — and deletes it by key.
-/

structure TTLCache (V : Type) where
  ttlSeconds : Int
  maxSize : Int
  cache : List (String × V × ℚ)
  hits : Nat
  misses : Nat
  expirations : Nat

/-- `TTLCache.get` at current time `now`: a present, unexpired entry is a hit;
a present expired entry is deleted, counted as expiration and miss. -/
def TTLCache.get (c : TTLCache V) (key : String) (now : ℚ) :
    Option V × TTLCache V :=
  match dictLookup key c.cache with
  | some (v, ts) =>
      if now - ts < (c.ttlSeconds : ℚ) then
        (some v, { c with hits := c.hits + 1 })
      else
        (none,
         { c with
            cache := dictErase key c.cache
            expirations := c.expirations + 1
            misses := c.misses + 1 })
  | none => (none, { c with misses := c.misses + 1 })

/-- `min(items, key=lambda x: x[1][1])` starting from first element `b`:
keeps the current best unless a strictly smaller timestamp appears. -/
def minEntry (b : String × V × ℚ) : List (String × V × ℚ) → String × V × ℚ
  | [] => b
  | e :: l => minEntry (if e.2.2 < b.2.2 then e else b) l

/-- `TTLCache._evict_oldest`: no-op on an empty cache, otherwise deletes the
entry with the smallest stored insertion timestamp. -/
def TTLCache.evictOldest (c : TTLCache V) : TTLCache V :=
  match c.cache with
  | [] => c
  | e :: l => { c with cache := dictErase (minEntry e l).1 c.cache }

/-- `TTLCache.put`: capacity eviction happens only when the key is genuinely
new and `len(cache) >= max_size`; then `self.cache[key] = (value, now)`. -/
def TTLCache.put (c : TTLCache V) (key : String) (value : V) (now : ℚ) :
    TTLCache V :=
  let c1 :=
    if c.maxSize ≤ (c.cache.length : Int) ∧ (dictLookup key c.cache).isNone
    then c.evictOldest else c
  { c1 with cache := dictSet key (value, now) c1.cache }

theorem minEntry_spec (b : String × V × ℚ) (l : List (String × V × ℚ)) :
    minEntry b l ∈ b :: l ∧ (minEntry b l).2.2 ≤ b.2.2 ∧
      ∀ e ∈ l, (minEntry b l).2.2 ≤ e.2.2 := by
  induction l generalizing b with
  | nil => exact ⟨by simp [minEntry], le_refl _, by simp⟩
  | cons e l ih =>
    simp only [minEntry]
    by_cases hc : e.2.2 < b.2.2
    · rw [if_pos hc]
      obtain ⟨hm, hle, hall⟩ := ih e
      refine ⟨?_, le_trans hle (le_of_lt hc), ?_⟩
      · rcases List.mem_cons.mp hm with h | h
        · rw [h]; simp
        · exact List.mem_cons_of_mem _ (List.mem_cons_of_mem _ h)
      · intro e' he'
        rcases List.mem_cons.mp he' with rfl | h'
        · exact hle
        · exact hall e' h'
    · rw [if_neg hc]
      obtain ⟨hm, hle, hall⟩ := ih b
      refine ⟨?_, hle, ?_⟩
      · rcases List.mem_cons.mp hm with h | h
        · rw [h]; simp
        · exact List.mem_cons_of_mem _ (List.mem_cons_of_mem _ h)
      · intro e' he'
        rcases List.mem_cons.mp he' with rfl | h'
        · exact le_trans hle (not_lt.mp hc)
        · exact hall e' h'

theorem dictErase_subset (key : String) (l : List (String × β)) :
    ∀ e ∈ dictErase key l, e ∈ l := by
  induction l with
  | nil => simp [dictErase]
  | cons e0 l ih =>
    intro e he
    by_cases h : e0.1 = key
    · simp only [dictErase, if_pos h] at he
      exact List.mem_cons_of_mem _ (ih e he)
    · simp only [dictErase, if_neg h] at he
      rcases List.mem_cons.mp he with rfl | he'
      · simp
      · exact List.mem_cons_of_mem _ (ih e he')

theorem dictLookup_of_mem (l : List (String × β)) (hnd : NodupKeys l)
    (k : String) (v : β) (h : (k, v) ∈ l) : dictLookup k l = some v := by
  induction l with
  | nil => simp at h
  | cons e l ih =>
    rw [NodupKeys, List.pairwise_cons] at hnd
    rcases List.mem_cons.mp h with rfl | h'
    · simp [dictLookup]
    · have hne : e.1 ≠ k := by
        have := hnd.1 (k, v) h'
        simpa using this
      simp only [dictLookup, if_neg hne]
      exact ih hnd.2 h'

def ttlZeroCache : TTLCache Nat :=
  { ttlSeconds := 300, maxSize := 0, cache := [],
    hits := 0, misses := 0, expirations := 0 }

/-- C6 counterexample: a TTL cache with `max_size = 0` and an empty cache
holds `max_size`-or-more entries, and `"a"` is a genuinely new key, so the
claim demands that this `put` first evict exactly one entry — the one with
the smallest stored timestamp.  But the cache has no entries at all
(`¬∃ old, old ∈ cache`), and the code's `_evict_oldest` hits its
`if not self.cache: return` guard and evicts nothing: the size grows from 0
to 1 instead of one entry being removed. -/
theorem ttl_put_empty_at_capacity_counterexample :
    ttlZeroCache.maxSize ≤ (ttlZeroCache.cache.length : Int) ∧
    dictLookup "a" ttlZeroCache.cache = none ∧
    (ttlZeroCache.put "a" 1 5).cache.length =
      ttlZeroCache.cache.length + 1 ∧
    ¬∃ old, old ∈ ttlZeroCache.cache := by
  refine ⟨by norm_num [ttlZeroCache], rfl, rfl, by simp [ttlZeroCache]⟩

/-- C6 amended: on a TTL cache with distinct keys holding `max_size` or more
entries *and at least one entry* (the two coincide whenever `max_size ≥ 1`),
a `put` of an absent key first evicts exactly one entry — one with the
minimal stored insertion timestamp across the whole cache (the TTL is never
consulted) — and then appends the new entry, leaving the total size
unchanged; on an *empty* cache at capacity (possible only for
`max_size ≤ 0`) `_evict_oldest`'s empty guard evicts nothing and the new
entry is simply inserted; a `put` of a present key evicts nothing: every
other entry is kept in place and the key's entry is overwritten with the new
value and the current timestamp. -/
theorem ttl_put_eviction_amended (c : TTLCache Nat) (key : String)
    (value : Nat) (now : ℚ) (hnd : NodupKeys c.cache) :
    (dictLookup key c.cache = none → c.cache ≠ [] →
      c.maxSize ≤ (c.cache.length : Int) →
      ∃ old ∈ c.cache, (∀ e ∈ c.cache, old.2.2 ≤ e.2.2) ∧
        (c.put key value now).cache =
          dictErase old.1 c.cache ++ [(key, (value, now))] ∧
        (c.put key value now).cache.length = c.cache.length) ∧
    (c.cache = [] → (c.put key value now).cache = [(key, (value, now))]) ∧
    (∀ v0 ts0, dictLookup key c.cache = some (v0, ts0) →
      ∃ l1 l2, c.cache = l1 ++ (key, (v0, ts0)) :: l2 ∧
        (c.put key value now).cache = l1 ++ (key, (value, now)) :: l2) := by
  refine ⟨?_, ?_, ?_⟩
  · intro h hne hfull
    have hcond : c.maxSize ≤ (c.cache.length : Int) ∧
        (dictLookup key c.cache).isNone := ⟨hfull, by rw [h]; rfl⟩
    cases hc : c.cache with
    | nil => exact absurd hc hne
    | cons e0 l0 =>
      have hevict : c.evictOldest =
          { c with cache := dictErase (minEntry e0 l0).1 (e0 :: l0) } := by
        simp only [TTLCache.evictOldest]
        rw [hc]
      have hput : (c.put key value now).cache =
          dictSet key (value, now) (dictErase (minEntry e0 l0).1 (e0 :: l0)) := by
        simp only [TTLCache.put]
        rw [if_pos hcond, hevict]
      obtain ⟨hmem0, hle0, hall0⟩ := minEntry_spec e0 l0
      have hmem : minEntry e0 l0 ∈ c.cache := by rw [hc]; exact hmem0
      have hlookold : dictLookup (minEntry e0 l0).1 c.cache =
          some (minEntry e0 l0).2 :=
        dictLookup_of_mem c.cache hnd _ _ (by simpa using hmem)
      obtain ⟨l1, l2, hsplit, herase, h1, h2⟩ :=
        dictLookup_decomp _ c.cache hnd _ hlookold
      have herase' : dictErase (minEntry e0 l0).1 (e0 :: l0) = l1 ++ l2 := by
        rw [← hc]
        exact herase
      have hkeyabs : ∀ e ∈ l1 ++ l2, e.1 ≠ key := by
        intro e he
        have : e ∈ c.cache :=
          dictErase_subset (minEntry e0 l0).1 c.cache e (by rw [herase]; exact he)
        exact (dictLookup_eq_none_iff key c.cache).mp h e this
      rw [hc] at hsplit
      refine ⟨minEntry e0 l0, hmem0, ?_, ?_, ?_⟩
      · intro e he
        rcases List.mem_cons.mp he with rfl | he'
        · exact hle0
        · exact hall0 e he'
      · rw [hput, herase', dictSet_of_absent key _ _ hkeyabs]
      · rw [hput, herase', dictSet_of_absent key _ _ hkeyabs, hsplit]
        simp
  · intro hc
    have hevict : c.evictOldest = c := by
      simp only [TTLCache.evictOldest]
      rw [hc]
    by_cases hcond : c.maxSize ≤ (c.cache.length : Int) ∧
        (dictLookup key c.cache).isNone
    · simp only [TTLCache.put]
      rw [if_pos hcond, hevict, hc]
      rfl
    · simp only [TTLCache.put]
      rw [if_neg hcond, hc]
      rfl
  · intro v0 ts0 h
    have hcond : ¬(c.maxSize ≤ (c.cache.length : Int) ∧
        (dictLookup key c.cache).isNone) := by
      simp [h]
    obtain ⟨l1, l2, hsplit, herase, h1, h2⟩ :=
      dictLookup_decomp key c.cache hnd (v0, ts0) h
    have hput : (c.put key value now).cache =
        dictSet key (value, now) c.cache := by
      simp only [TTLCache.put]
      rw [if_neg hcond]
    refine ⟨l1, l2, hsplit, ?_⟩
    rw [hput, hsplit]
    exact dictSet_of_present key (value, now) l1 l2 (v0, ts0) h1

def ttlWitnessCache : TTLCache Nat :=
  { ttlSeconds := 300, maxSize := 2,
    cache := [("a", (1, (5 : ℚ))), ("b", (2, (1 : ℚ)))],
    hits := 0, misses := 0, expirations := 0 }

/-- Witness for the amended C6 on a concrete two-entry cache at capacity. -/
theorem ttl_put_eviction_amended_witness :
    (dictLookup "c" ttlWitnessCache.cache = none →
      ttlWitnessCache.cache ≠ [] →
      ttlWitnessCache.maxSize ≤ (ttlWitnessCache.cache.length : Int) →
      ∃ old ∈ ttlWitnessCache.cache,
        (∀ e ∈ ttlWitnessCache.cache, old.2.2 ≤ e.2.2) ∧
        (ttlWitnessCache.put "c" 3 20).cache =
          dictErase old.1 ttlWitnessCache.cache ++ [("c", (3, 20))] ∧
        (ttlWitnessCache.put "c" 3 20).cache.length =
          ttlWitnessCache.cache.length) ∧
    (ttlWitnessCache.cache = [] →
      (ttlWitnessCache.put "c" 3 20).cache = [("c", (3, 20))]) ∧
    (∀ v0 ts0, dictLookup "c" ttlWitnessCache.cache = some (v0, ts0) →
      ∃ l1 l2, ttlWitnessCache.cache = l1 ++ ("c", (v0, ts0)) :: l2 ∧
        (ttlWitnessCache.put "c" 3 20).cache = l1 ++ ("c", (3, 20)) :: l2) :=
  ttl_put_eviction_amended ttlWitnessCache "c" 3 20
    (by simp [NodupKeys, ttlWitnessCache])

/-!
## `MemoryLimitedIndexer` (src/memory_limited_indexer.py)

The size estimator (`_estimate_size`, built on `sys.getsizeof`) is an opaque
runtime function; it is abstracted as arbitrary functions `estS` (strings) and
`estM` (metadata values) into `Nat` — every claim below is proved for every
estimator.  The sink callback is abstracted by a flag `sinkRaises` saying
whether this invocation raises; the `sunk` field records the arguments it was
invoked with (if at all), and `err` whether the exception propagated.
-/

structure Indexer (M : Type) where
  maxMemoryBytes : Int
  documents : List String
  metadatas : List M
  ids : List String
  currentMemory : Nat
  totalChunks : Nat
  totalBatches : Nat

structure FlushResult (M : Type) where
  err : Bool
  sunk : Option (List String × List M × List String)
  st : Indexer M

/-- `MemoryLimitedIndexer.flush`: empty buffer is a no-op that never calls
the sink; otherwise the sink is invoked with the three sequences, the
`finally` block clears the buffers and the byte counter whether or not the
sink raised, and `total_batches` is bumped only on success. -/
def Indexer.flush (st : Indexer M) (sinkRaises : Bool) : FlushResult M :=
  if st.documents = [] then ⟨false, none, st⟩
  else
    ⟨sinkRaises, some (st.documents, st.metadatas, st.ids),
     { st with
        documents := []
        metadatas := []
        ids := []
        currentMemory := 0
        totalBatches := st.totalBatches + (if sinkRaises then 0 else 1) }⟩

def Indexer.appendChunk (st : Indexer M) (document : String) (metadata : M)
    (docId : String) (chunkSize : Nat) : Indexer M :=
  { st with
     documents := st.documents ++ [document]
     metadatas := st.metadatas ++ [metadata]
     ids := st.ids ++ [docId]
     currentMemory := st.currentMemory + chunkSize
     totalChunks := st.totalChunks + 1 }

/-- `MemoryLimitedIndexer.add_chunk`: flush first iff the running estimate
would exceed `max_memory_bytes` *and* the buffer is non-empty; if that flush
raises, the exception propagates and the chunk is never appended (the
append and the `total_chunks` increment are not reached). -/
def Indexer.addChunk (estS : String → Nat) (estM : M → Nat) (st : Indexer M)
    (document : String) (metadata : M) (docId : String) (sinkRaises : Bool) :
    FlushResult M :=
  let chunkSize := estS document + estM metadata + estS docId
  if st.maxMemoryBytes < ((st.currentMemory + chunkSize : Nat) : Int) ∧
      st.documents ≠ [] then
    let f := st.flush sinkRaises
    if f.err then ⟨true, f.sunk, f.st⟩
    else ⟨false, f.sunk, f.st.appendChunk document metadata docId chunkSize⟩
  else
    ⟨false, none, st.appendChunk document metadata docId chunkSize⟩

theorem addChunk_over (estS : String → Nat) (estM : M → Nat) (st : Indexer M)
    (document : String) (metadata : M) (docId : String) (b : Bool)
    (h1 : st.maxMemoryBytes <
      ((st.currentMemory + (estS document + estM metadata + estS docId) : Nat) : Int))
    (h2 : st.documents ≠ []) :
    st.addChunk estS estM document metadata docId b =
      if (st.flush b).err then ⟨true, (st.flush b).sunk, (st.flush b).st⟩
      else ⟨false, (st.flush b).sunk,
        (st.flush b).st.appendChunk document metadata docId
          (estS document + estM metadata + estS docId)⟩ := by
  simp only [Indexer.addChunk]
  rw [if_pos ⟨h1, h2⟩]

theorem addChunk_not_over (estS : String → Nat) (estM : M → Nat)
    (st : Indexer M) (document : String) (metadata : M) (docId : String)
    (b : Bool)
    (h : ¬(st.maxMemoryBytes <
        ((st.currentMemory + (estS document + estM metadata + estS docId) : Nat) : Int) ∧
      st.documents ≠ [])) :
    st.addChunk estS estM document metadata docId b =
      ⟨false, none, st.appendChunk document metadata docId
        (estS document + estM metadata + estS docId)⟩ := by
  simp only [Indexer.addChunk]
  rw [if_neg h]

theorem flush_nonempty (st : Indexer M) (b : Bool) (h : st.documents ≠ []) :
    st.flush b =
      ⟨b, some (st.documents, st.metadatas, st.ids),
       { st with
          documents := []
          metadatas := []
          ids := []
          currentMemory := 0
          totalBatches := st.totalBatches + (if b then 0 else 1) }⟩ := by
  simp only [Indexer.flush]
  rw [if_neg h]

/-- C3: `flush` on an empty buffer is a no-op and never invokes the sink; on
a non-empty buffer it invokes the sink with the three current sequences; if
the sink raises the error propagates (`err = true`) but the buffers and the
byte counter are reset anyway; `total_batches` increments exactly when the
sink call succeeds, and `total_chunks` is untouched. -/
theorem indexer_flush_spec (st : Indexer Nat) (sinkRaises : Bool) :
    (st.documents = [] → st.flush sinkRaises = ⟨false, none, st⟩) ∧
    (st.documents ≠ [] →
      (st.flush sinkRaises).err = sinkRaises ∧
      (st.flush sinkRaises).sunk = some (st.documents, st.metadatas, st.ids) ∧
      (st.flush sinkRaises).st.documents = [] ∧
      (st.flush sinkRaises).st.metadatas = [] ∧
      (st.flush sinkRaises).st.ids = [] ∧
      (st.flush sinkRaises).st.currentMemory = 0 ∧
      (st.flush sinkRaises).st.totalBatches =
        st.totalBatches + (if sinkRaises then 0 else 1) ∧
      (st.flush sinkRaises).st.totalChunks = st.totalChunks ∧
      (st.flush sinkRaises).st.maxMemoryBytes = st.maxMemoryBytes) := by
  constructor
  · intro h
    simp only [Indexer.flush]
    rw [if_pos h]
  · intro h
    rw [flush_nonempty st sinkRaises h]
    simp

/-- Witness for C3 on a concrete one-chunk buffer and a raising sink. -/
theorem indexer_flush_spec_witness :
    (({ maxMemoryBytes := 100, documents := ["d"], metadatas := [7],
        ids := ["i"], currentMemory := 3, totalChunks := 1,
        totalBatches := 0 } : Indexer Nat).documents = [] →
      ({ maxMemoryBytes := 100, documents := ["d"], metadatas := [7],
         ids := ["i"], currentMemory := 3, totalChunks := 1,
         totalBatches := 0 } : Indexer Nat).flush true =
        ⟨false, none,
         { maxMemoryBytes := 100, documents := ["d"], metadatas := [7],
           ids := ["i"], currentMemory := 3, totalChunks := 1,
           totalBatches := 0 }⟩) ∧
    (({ maxMemoryBytes := 100, documents := ["d"], metadatas := [7],
        ids := ["i"], currentMemory := 3, totalChunks := 1,
        totalBatches := 0 } : Indexer Nat).documents ≠ [] →
      (({ maxMemoryBytes := 100, documents := ["d"], metadatas := [7],
          ids := ["i"], currentMemory := 3, totalChunks := 1,
          totalBatches := 0 } : Indexer Nat).flush true).err = true ∧
      (({ maxMemoryBytes := 100, documents := ["d"], metadatas := [7],
          ids := ["i"], currentMemory := 3, totalChunks := 1,
          totalBatches := 0 } : Indexer Nat).flush true).sunk =
        some (["d"], [7], ["i"]) ∧
      (({ maxMemoryBytes := 100, documents := ["d"], metadatas := [7],
          ids := ["i"], currentMemory := 3, totalChunks := 1,
          totalBatches := 0 } : Indexer Nat).flush true).st.documents = [] ∧
      (({ maxMemoryBytes := 100, documents := ["d"], metadatas := [7],
          ids := ["i"], currentMemory := 3, totalChunks := 1,
          totalBatches := 0 } : Indexer Nat).flush true).st.metadatas = [] ∧
      (({ maxMemoryBytes := 100, documents := ["d"], metadatas := [7],
          ids := ["i"], currentMemory := 3, totalChunks := 1,
          totalBatches := 0 } : Indexer Nat).flush true).st.ids = [] ∧
      (({ maxMemoryBytes := 100, documents := ["d"], metadatas := [7],
          ids := ["i"], currentMemory := 3, totalChunks := 1,
          totalBatches := 0 } : Indexer Nat).flush true).st.currentMemory = 0 ∧
      (({ maxMemoryBytes := 100, documents := ["d"], metadatas := [7],
          ids := ["i"], currentMemory := 3, totalChunks := 1,
          totalBatches := 0 } : Indexer Nat).flush true).st.totalBatches =
        0 + (if true then 0 else 1) ∧
      (({ maxMemoryBytes := 100, documents := ["d"], metadatas := [7],
          ids := ["i"], currentMemory := 3, totalChunks := 1,
          totalBatches := 0 } : Indexer Nat).flush true).st.totalChunks = 1 ∧
      (({ maxMemoryBytes := 100, documents := ["d"], metadatas := [7],
          ids := ["i"], currentMemory := 3, totalChunks := 1,
          totalBatches := 0 } : Indexer Nat).flush true).st.maxMemoryBytes =
        100) :=
  indexer_flush_spec
    { maxMemoryBytes := 100, documents := ["d"], metadatas := [7],
      ids := ["i"], currentMemory := 3, totalChunks := 1, totalBatches := 0 }
    true

/-- C4: (a) when the incoming chunk's estimate would push the running byte
estimate over `max_memory_bytes` and the buffer is non-empty, `add_chunk`
flushes the old buffer through the sink first and then appends, leaving
exactly the new chunk buffered; (b) on an empty buffer the chunk is appended
with no flush and no sink invocation, even when its estimate alone exceeds
the budget; (c) after such an oversized append (`current_memory` over
budget, buffer non-empty), the very next `add_chunk` flushes the buffer
first, and (d) an explicit `flush` sinks it as well. -/
theorem add_chunk_budget_spec (estS : String → Nat) (estM : Nat → Nat)
    (st : Indexer Nat) (document : String) (metadata : Nat) (docId : String) :
    (st.maxMemoryBytes <
        ((st.currentMemory +
          (estS document + estM metadata + estS docId) : Nat) : Int) →
      st.documents ≠ [] →
      (st.addChunk estS estM document metadata docId false).sunk =
        some (st.documents, st.metadatas, st.ids) ∧
      (st.addChunk estS estM document metadata docId false).err = false ∧
      (st.addChunk estS estM document metadata docId false).st.documents =
        [document] ∧
      (st.addChunk estS estM document metadata docId false).st.currentMemory =
        estS document + estM metadata + estS docId) ∧
    (∀ b, st.documents = [] →
      (st.addChunk estS estM document metadata docId b).sunk = none ∧
      (st.addChunk estS estM document metadata docId b).err = false ∧
      (st.addChunk estS estM document metadata docId b).st.documents =
        [document]) ∧
    (st.maxMemoryBytes < (st.currentMemory : Int) → st.documents ≠ [] →
      (st.addChunk estS estM document metadata docId false).sunk =
        some (st.documents, st.metadatas, st.ids)) ∧
    (st.documents ≠ [] →
      (st.flush false).sunk = some (st.documents, st.metadatas, st.ids)) := by
  refine ⟨?_, ?_, ?_, ?_⟩
  · intro h1 h2
    rw [addChunk_over estS estM st document metadata docId false h1 h2,
        flush_nonempty st false h2]
    simp [Indexer.appendChunk]
  · intro b h
    have hcond : ¬(st.maxMemoryBytes <
        ((st.currentMemory +
          (estS document + estM metadata + estS docId) : Nat) : Int) ∧
        st.documents ≠ []) := by
      intro hc
      exact hc.2 h
    rw [addChunk_not_over estS estM st document metadata docId b hcond]
    simp [Indexer.appendChunk, h]
  · intro h1 h2
    have h1' : st.maxMemoryBytes <
        ((st.currentMemory +
          (estS document + estM metadata + estS docId) : Nat) : Int) := by
      push_cast
      omega
    rw [addChunk_over estS estM st document metadata docId false h1' h2,
        flush_nonempty st false h2]
    simp
  · intro h
    rw [flush_nonempty st false h]

/-- Witness for C4 on a concrete state: a buffered oversized chunk forces a
flush on the next add. -/
theorem add_chunk_budget_spec_witness :
    (({ maxMemoryBytes := 1, documents := ["ab"], metadatas := [0],
        ids := ["c"], currentMemory := 3, totalChunks := 1,
        totalBatches := 0 } : Indexer Nat).maxMemoryBytes <
        ((({ maxMemoryBytes := 1, documents := ["ab"], metadatas := [0],
             ids := ["c"], currentMemory := 3, totalChunks := 1,
             totalBatches := 0 } : Indexer Nat).currentMemory +
          (String.length "d" + (fun _ => 0 : Nat → Nat) 0 +
            String.length "e") : Nat) : Int) →
      ({ maxMemoryBytes := 1, documents := ["ab"], metadatas := [0],
         ids := ["c"], currentMemory := 3, totalChunks := 1,
         totalBatches := 0 } : Indexer Nat).documents ≠ [] →
      (({ maxMemoryBytes := 1, documents := ["ab"], metadatas := [0],
          ids := ["c"], currentMemory := 3, totalChunks := 1,
          totalBatches := 0 } : Indexer Nat).addChunk String.length
          (fun _ => 0) "d" 0 "e" false).sunk = some (["ab"], [0], ["c"]) ∧
      (({ maxMemoryBytes := 1, documents := ["ab"], metadatas := [0],
          ids := ["c"], currentMemory := 3, totalChunks := 1,
          totalBatches := 0 } : Indexer Nat).addChunk String.length
          (fun _ => 0) "d" 0 "e" false).err = false ∧
      (({ maxMemoryBytes := 1, documents := ["ab"], metadatas := [0],
          ids := ["c"], currentMemory := 3, totalChunks := 1,
          totalBatches := 0 } : Indexer Nat).addChunk String.length
          (fun _ => 0) "d" 0 "e" false).st.documents = ["d"] ∧
      (({ maxMemoryBytes := 1, documents := ["ab"], metadatas := [0],
          ids := ["c"], currentMemory := 3, totalChunks := 1,
          totalBatches := 0 } : Indexer Nat).addChunk String.length
          (fun _ => 0) "d" 0 "e" false).st.currentMemory =
        String.length "d" + (fun _ => 0 : Nat → Nat) 0 + String.length "e") ∧
    (∀ b, ({ maxMemoryBytes := 1, documents := ["ab"], metadatas := [0],
             ids := ["c"], currentMemory := 3, totalChunks := 1,
             totalBatches := 0 } : Indexer Nat).documents = [] →
      (({ maxMemoryBytes := 1, documents := ["ab"], metadatas := [0],
          ids := ["c"], currentMemory := 3, totalChunks := 1,
          totalBatches := 0 } : Indexer Nat).addChunk String.length
          (fun _ => 0) "d" 0 "e" b).sunk = none ∧
      (({ maxMemoryBytes := 1, documents := ["ab"], metadatas := [0],
          ids := ["c"], currentMemory := 3, totalChunks := 1,
          totalBatches := 0 } : Indexer Nat).addChunk String.length
          (fun _ => 0) "d" 0 "e" b).err = false ∧
      (({ maxMemoryBytes := 1, documents := ["ab"], metadatas := [0],
          ids := ["c"], currentMemory := 3, totalChunks := 1,
          totalBatches := 0 } : Indexer Nat).addChunk String.length
          (fun _ => 0) "d" 0 "e" b).st.documents = ["d"]) ∧
    (({ maxMemoryBytes := 1, documents := ["ab"], metadatas := [0],
        ids := ["c"], currentMemory := 3, totalChunks := 1,
        totalBatches := 0 } : Indexer Nat).maxMemoryBytes <
        ((({ maxMemoryBytes := 1, documents := ["ab"], metadatas := [0],
             ids := ["c"], currentMemory := 3, totalChunks := 1,
             totalBatches := 0 } : Indexer Nat).currentMemory : Nat) : Int) →
      ({ maxMemoryBytes := 1, documents := ["ab"], metadatas := [0],
         ids := ["c"], currentMemory := 3, totalChunks := 1,
         totalBatches := 0 } : Indexer Nat).documents ≠ [] →
      (({ maxMemoryBytes := 1, documents := ["ab"], metadatas := [0],
          ids := ["c"], currentMemory := 3, totalChunks := 1,
          totalBatches := 0 } : Indexer Nat).addChunk String.length
          (fun _ => 0) "d" 0 "e" false).sunk = some (["ab"], [0], ["c"])) ∧
    (({ maxMemoryBytes := 1, documents := ["ab"], metadatas := [0],
        ids := ["c"], currentMemory := 3, totalChunks := 1,
        totalBatches := 0 } : Indexer Nat).documents ≠ [] →
      (({ maxMemoryBytes := 1, documents := ["ab"], metadatas := [0],
          ids := ["c"], currentMemory := 3, totalChunks := 1,
          totalBatches := 0 } : Indexer Nat).flush false).sunk =
        some (["ab"], [0], ["c"])) :=
  add_chunk_budget_spec String.length (fun _ => 0)
    { maxMemoryBytes := 1, documents := ["ab"], metadatas := [0],
      ids := ["c"], currentMemory := 3, totalChunks := 1, totalBatches := 0 }
    "d" 0 "e"

def c8State : Indexer Nat :=
  { maxMemoryBytes := 1, documents := ["ab"], metadatas := [0], ids := ["c"],
    currentMemory := 3, totalChunks := 1, totalBatches := 0 }

/-- C8 counterexample: one chunk has been accepted (`total_chunks = 1`).  The
next `add_chunk` triggers an automatic flush whose sink raises; the exception
propagates out of `add_chunk` before `total_chunks += 1` is reached, so
`total_chunks` stays 1 after the second add — the claim demands it become 2
regardless of the flush outcome. -/
theorem total_chunks_counterexample :
    (c8State.addChunk String.length (fun _ => 0) "d" 0 "e" true).err = true ∧
    (c8State.addChunk String.length (fun _ => 0) "d" 0 "e" true).st.totalChunks
      = c8State.totalChunks := by
  constructor <;> rfl

/-- C8 amended: `total_chunks` increments on every `add_chunk` that does not
trigger an automatic flush, and on every one whose automatic flush succeeds;
when the automatic flush raises, the exception propagates, the chunk is not
appended, and `total_chunks` is unchanged. -/
theorem total_chunks_amended (estS : String → Nat) (estM : Nat → Nat)
    (st : Indexer Nat) (document : String) (metadata : Nat) (docId : String) :
    (∀ b, ¬(st.maxMemoryBytes <
        ((st.currentMemory +
          (estS document + estM metadata + estS docId) : Nat) : Int) ∧
        st.documents ≠ []) →
      (st.addChunk estS estM document metadata docId b).st.totalChunks =
        st.totalChunks + 1 ∧
      (st.addChunk estS estM document metadata docId b).err = false) ∧
    (st.maxMemoryBytes <
        ((st.currentMemory +
          (estS document + estM metadata + estS docId) : Nat) : Int) →
      st.documents ≠ [] →
      (st.addChunk estS estM document metadata docId false).st.totalChunks =
        st.totalChunks + 1 ∧
      (st.addChunk estS estM document metadata docId true).err = true ∧
      (st.addChunk estS estM document metadata docId true).st.totalChunks =
        st.totalChunks) := by
  constructor
  · intro b h
    rw [addChunk_not_over estS estM st document metadata docId b h]
    simp [Indexer.appendChunk]
  · intro h1 h2
    refine ⟨?_, ?_, ?_⟩
    · rw [addChunk_over estS estM st document metadata docId false h1 h2,
          flush_nonempty st false h2]
      simp [Indexer.appendChunk]
    · rw [addChunk_over estS estM st document metadata docId true h1 h2,
          flush_nonempty st true h2]
      simp
    · rw [addChunk_over estS estM st document metadata docId true h1 h2,
          flush_nonempty st true h2]
      simp

/-- Witness for the amended C8 at the concrete counterexample state. -/
theorem total_chunks_amended_witness :
    (∀ b, ¬(c8State.maxMemoryBytes <
        ((c8State.currentMemory +
          (String.length "d" + (fun _ => 0 : Nat → Nat) 0 +
            String.length "e") : Nat) : Int) ∧
        c8State.documents ≠ []) →
      (c8State.addChunk String.length (fun _ => 0) "d" 0 "e" b).st.totalChunks
        = c8State.totalChunks + 1 ∧
      (c8State.addChunk String.length (fun _ => 0) "d" 0 "e" b).err = false) ∧
    (c8State.maxMemoryBytes <
        ((c8State.currentMemory +
          (String.length "d" + (fun _ => 0 : Nat → Nat) 0 +
            String.length "e") : Nat) : Int) →
      c8State.documents ≠ [] →
      (c8State.addChunk String.length (fun _ => 0) "d" 0 "e"
          false).st.totalChunks = c8State.totalChunks + 1 ∧
      (c8State.addChunk String.length (fun _ => 0) "d" 0 "e" true).err =
        true ∧
      (c8State.addChunk String.length (fun _ => 0) "d" 0 "e"
          true).st.totalChunks = c8State.totalChunks) :=
  total_chunks_amended String.length (fun _ => 0) c8State "d" 0 "e"

/-!
## `atomic_write` / `IndexMetadata.save` (src/incremental_indexing.py)

The filesystem is a partial map from path strings to file contents.
`atomic_write` creates a temporary file via `tempfile.mkstemp` (a fresh name,
distinct from the target), writes/flushes/fsyncs the content, and
`os.replace`s it onto the target; the three failure points the specification
quantifies over (the write, the fsync, the rename) are modelled by a failure
scenario, and on any of them the `except` handler unlinks the temporary file
and re-raises.  `json.dumps` is an opaque serializer, abstracted as an
arbitrary function from the metadata mapping to a string.
-/

def FS : Type := String → Option String

def FS.set (fs : FS) (p : String) (c : Option String) : FS :=
  fun q => if q = p then c else fs q

structure AtomicScenario where
  writeFails : Bool
  fsyncFails : Bool
  renameFails : Bool

structure AWResult where
  err : Bool
  fs : FS

/-- `atomic_write(file_path, content)` under a failure scenario: returns
whether an exception propagated and the resulting filesystem. -/
def atomic_write (fs : FS) (filePath tempPath : String) (content : String)
    (sc : AtomicScenario) : AWResult :=
  let fs1 := fs.set tempPath (some "")
  if sc.writeFails then
    ⟨true, fs1.set tempPath none⟩
  else
    let fs2 := fs1.set tempPath (some content)
    if sc.fsyncFails then
      ⟨true, fs2.set tempPath none⟩
    else if sc.renameFails then
      ⟨true, fs2.set tempPath none⟩
    else
      ⟨false, (fs2.set filePath (some content)).set tempPath none⟩

/-- `.ai/index_metadata.json` (config.py: `INDEX_METADATA_FILE`). -/
def INDEX_METADATA_FILE : String := ".ai/index_metadata.json"

/-- A stored metadata record `{mtime, indexed_at}`; the `mtime` field may be
absent from a malformed record, hence `Option`. -/
structure FileRecord where
  mtime : Option ℚ
  indexedAt : String

structure IndexMetadata where
  metadata : List (String × FileRecord)

/-- `IndexMetadata.save`: serialize the full mapping (`json.dumps`, opaque
`dumps` argument) and `atomic_write` it to `INDEX_METADATA_FILE`; any
exception is logged and re-raised. -/
def IndexMetadata.save (m : IndexMetadata)
    (dumps : List (String × FileRecord) → String) (fs : FS)
    (tempPath : String) (sc : AtomicScenario) : AWResult :=
  atomic_write fs INDEX_METADATA_FILE tempPath (dumps m.metadata) sc

theorem FS.set_self (fs : FS) (p : String) (c : Option String) :
    (fs.set p c) p = c := by
  simp [FS.set]

theorem FS.set_other (fs : FS) (p q : String) (c : Option String)
    (h : q ≠ p) : (fs.set p c) q = fs q := by
  simp [FS.set, h]

/-- C1: for every metadata mapping, serializer, filesystem and temporary-file
name distinct from the target, if any of the three failure points (temp-file
write, fsync, rename) fires during `IndexMetadata.save`, then the error
propagates to the caller, the pre-existing metadata file is byte-for-byte
unchanged, and the temporary file does not remain on disk. -/
theorem atomic_save_failure_spec (m : IndexMetadata)
    (dumps : List (String × FileRecord) → String) (fs : FS)
    (tempPath : String) (sc : AtomicScenario)
    (htemp : tempPath ≠ INDEX_METADATA_FILE)
    (hfail : sc.writeFails = true ∨ sc.fsyncFails = true ∨
      sc.renameFails = true) :
    (m.save dumps fs tempPath sc).err = true ∧
    (m.save dumps fs tempPath sc).fs INDEX_METADATA_FILE =
      fs INDEX_METADATA_FILE ∧
    (m.save dumps fs tempPath sc).fs tempPath = none := by
  have htgt : INDEX_METADATA_FILE ≠ tempPath := fun h => htemp h.symm
  rcases hw : sc.writeFails with _ | _
  · rcases hf : sc.fsyncFails with _ | _
    · rcases hr : sc.renameFails with _ | _
      · rcases hfail with h | h | h
        · rw [hw] at h; exact absurd h (by simp)
        · rw [hf] at h; exact absurd h (by simp)
        · rw [hr] at h; exact absurd h (by simp)
      · refine ⟨?_, ?_, ?_⟩ <;>
          simp [IndexMetadata.save, atomic_write, hw, hf, hr,
            FS.set_self, FS.set_other _ _ _ _ htgt]
    · refine ⟨?_, ?_, ?_⟩ <;>
        simp [IndexMetadata.save, atomic_write, hw, hf,
          FS.set_self, FS.set_other _ _ _ _ htgt]
  · refine ⟨?_, ?_, ?_⟩ <;>
      simp [IndexMetadata.save, atomic_write, hw,
        FS.set_self, FS.set_other _ _ _ _ htgt]

/-- Witness for C1: a crash at the rename step on a filesystem already
holding a metadata file. -/
theorem atomic_save_failure_spec_witness :
    ((⟨[]⟩ : IndexMetadata).save (fun _ => "{}")
        (fun p => if p = INDEX_METADATA_FILE then some "old" else none)
        ".ai/.index_metadata.json.x7.tmp" ⟨false, false, true⟩).err = true ∧
    ((⟨[]⟩ : IndexMetadata).save (fun _ => "{}")
        (fun p => if p = INDEX_METADATA_FILE then some "old" else none)
        ".ai/.index_metadata.json.x7.tmp" ⟨false, false, true⟩).fs
      INDEX_METADATA_FILE =
      (fun p => if p = INDEX_METADATA_FILE then some "old" else none)
        INDEX_METADATA_FILE ∧
    ((⟨[]⟩ : IndexMetadata).save (fun _ => "{}")
        (fun p => if p = INDEX_METADATA_FILE then some "old" else none)
        ".ai/.index_metadata.json.x7.tmp" ⟨false, false, true⟩).fs
      ".ai/.index_metadata.json.x7.tmp" = none :=
  atomic_save_failure_spec ⟨[]⟩ (fun _ => "{}")
    (fun p => if p = INDEX_METADATA_FILE then some "old" else none)
    ".ai/.index_metadata.json.x7.tmp" ⟨false, false, true⟩
    (by simp [INDEX_METADATA_FILE]) (Or.inr (Or.inr rfl))

/-!
## `IndexMetadata.get_file_mtime` / `get_changed_files`
(src/incremental_indexing.py, lines 114-136)

`stat` is the filesystem's `Path.stat().st_mtime`, `none` meaning the call
raised.  `get_file_mtime` is `self.metadata.get(file_path, {}).get("mtime",
0.0)`: a missing record, or a record without an `mtime` field, yields `0.0`.
-/

def get_file_mtime (m : List (String × FileRecord)) (p : String) : ℚ :=
  match dictLookup p m with
  | some r => r.mtime.getD 0
  | none => 0

/-- `IndexMetadata.get_changed_files`: a candidate is kept iff its `stat`
raises, or its current mtime is strictly greater than the stored one. -/
def get_changed_files (stat : String → Option ℚ)
    (m : List (String × FileRecord)) (allFiles : List String) : List String :=
  allFiles.filter fun p =>
    match stat p with
    | some current => decide (get_file_mtime m p < current)
    | none => true

/-- C5 counterexample: the claim says a candidate with *no stored record at
all* is always classified as changed.  But the code substitutes stored mtime
`0.0` for a missing record and compares strictly, so a recordless file whose
current on-disk mtime is `0.0` (the epoch; `stat` succeeds) is NOT selected. -/
theorem changed_files_counterexample :
    (fun _ : String => (some (0 : ℚ))) "a.py" = some 0 ∧
    dictLookup "a.py" ([] : List (String × FileRecord)) = none ∧
    "a.py" ∉ get_changed_files (fun _ => some 0) [] ["a.py"] := by
  refine ⟨rfl, rfl, ?_⟩
  simp [get_changed_files, get_file_mtime, dictLookup]

/-- C5 amended: a candidate is classified as changed iff its `stat` fails or
its current mtime is strictly greater than the stored mtime, where a missing
record (or a record without an `mtime` field) counts as stored mtime `0.0`;
in particular a candidate whose current mtime equals its stored mtime is
never selected. -/
theorem changed_files_amended (stat : String → Option ℚ)
    (m : List (String × FileRecord)) (allFiles : List String) (p : String) :
    (p ∈ get_changed_files stat m allFiles ↔
      p ∈ allFiles ∧ (stat p = none ∨
        ∃ current, stat p = some current ∧ get_file_mtime m p < current)) ∧
    (dictLookup p m = none → get_file_mtime m p = 0) := by
  constructor
  · rw [get_changed_files, List.mem_filter]
    cases h : stat p with
    | none => simp [h]
    | some current => simp [h]
  · intro h
    simp [get_file_mtime, h]

def c5Store : List (String × FileRecord) := [("a.py", ⟨some 100, "t"⟩)]

def c5Stat : String → Option ℚ :=
  fun p => if p = "a.py" then some 100 else if p = "b.py" then some 50 else none

/-- Witness for the amended C5 on the specification's own example store. -/
theorem changed_files_amended_witness :
    (("b.py" ∈ get_changed_files c5Stat c5Store ["a.py", "b.py"]) ↔
      "b.py" ∈ ["a.py", "b.py"] ∧ (c5Stat "b.py" = none ∨
        ∃ current, c5Stat "b.py" = some current ∧
          get_file_mtime c5Store "b.py" < current)) ∧
    (dictLookup "b.py" c5Store = none → get_file_mtime c5Store "b.py" = 0) :=
  changed_files_amended c5Stat c5Store ["a.py", "b.py"] "b.py"

/-!
## `FileCache` (src/cache_manager.py, lines 210-281)

An LRU cache of file contents plus a parallel mtime table.  `stat` abstracts
`Path.stat().st_mtime` (`none` = the call raised).  Both `get` and `put` wrap
their bodies in `try/except Exception`, so no exception ever escapes: the
models are total functions.
-/

structure FileCache where
  lru : LRUCache String
  mtimeCache : List (String × ℚ)

/-- `FileCache.get`: stat failure, missing mtime record, or mtime mismatch
all return `None`; only on an exact mtime match is the inner LRU consulted. -/
def FileCache.get (fc : FileCache) (stat : String → Option ℚ) (p : String) :
    Option String × FileCache :=
  match stat p with
  | none => (none, fc)
  | some current =>
      match dictLookup p fc.mtimeCache with
      | some cached =>
          if cached = current then
            ((fc.lru.get p).1, { fc with lru := (fc.lru.get p).2 })
          else (none, fc)
      | none => (none, fc)

/-- `FileCache.put`: on stat failure silently no-op; otherwise store the
content in the LRU and record the mtime.  (An exception from the inner LRU
`put` is also swallowed by the catch-all, leaving the cache unchanged.) -/
def FileCache.put (fc : FileCache) (stat : String → Option ℚ) (p : String)
    (content : String) : FileCache :=
  match stat p with
  | none => fc
  | some mtime =>
      match fc.lru.put p content with
      | .error _ => fc
      | .ok lru' => { lru := lru', mtimeCache := dictSet p mtime fc.mtimeCache }

/-- C7: `FileCache.get` returns content only when the current on-disk mtime
exists and equals the recorded one; a stat failure, a missing record, or a
mismatched mtime each yield `none` with the cache untouched (and the model is
a total function — no exception escapes); `FileCache.put` on a path whose
stat fails is a silent no-op. -/
theorem file_cache_mtime_spec (fc : FileCache) (stat : String → Option ℚ)
    (p : String) :
    (∀ content, (fc.get stat p).1 = some content →
      ∃ current, stat p = some current ∧
        dictLookup p fc.mtimeCache = some current) ∧
    (stat p = none → fc.get stat p = (none, fc)) ∧
    (∀ current, stat p = some current → dictLookup p fc.mtimeCache = none →
      fc.get stat p = (none, fc)) ∧
    (∀ current cached, stat p = some current →
      dictLookup p fc.mtimeCache = some cached → cached ≠ current →
      fc.get stat p = (none, fc)) ∧
    (∀ content, stat p = none → fc.put stat p content = fc) := by
  refine ⟨?_, ?_, ?_, ?_, ?_⟩
  · intro content h
    cases h1 : stat p with
    | none => simp [FileCache.get, h1] at h
    | some current =>
      cases h2 : dictLookup p fc.mtimeCache with
      | none => simp [FileCache.get, h1, h2] at h
      | some cached =>
        by_cases heq : cached = current
        · exact ⟨current, rfl, by rw [heq]⟩
        · simp [FileCache.get, h1, h2, heq] at h
  · intro h
    rw [FileCache.get, h]
  · intro current h1 h2
    rw [FileCache.get, h1, h2]
  · intro current cached h1 h2 hne
    simp [FileCache.get, h1, h2, hne]
  · intro content h
    rw [FileCache.put, h]

def c7Cache : FileCache := { lru := LRUCache.empty String 50, mtimeCache := [] }

def c7Stat : String → Option ℚ := fun _ => none

/-- Witness for C7: a path whose stat always fails. -/
theorem file_cache_mtime_spec_witness :
    (∀ content, (c7Cache.get c7Stat "f.py").1 = some content →
      ∃ current, c7Stat "f.py" = some current ∧
        dictLookup "f.py" c7Cache.mtimeCache = some current) ∧
    (c7Stat "f.py" = none → c7Cache.get c7Stat "f.py" = (none, c7Cache)) ∧
    (∀ current, c7Stat "f.py" = some current →
      dictLookup "f.py" c7Cache.mtimeCache = none →
      c7Cache.get c7Stat "f.py" = (none, c7Cache)) ∧
    (∀ current cached, c7Stat "f.py" = some current →
      dictLookup "f.py" c7Cache.mtimeCache = some cached → cached ≠ current →
      c7Cache.get c7Stat "f.py" = (none, c7Cache)) ∧
    (∀ content, c7Stat "f.py" = none →
      c7Cache.put c7Stat "f.py" content = c7Cache) :=
  file_cache_mtime_spec c7Cache c7Stat "f.py"

/-!
## `safe_read_text` (src/config.py, lines 267-311)

A file is a byte sequence (`none` if reading raises a non-decoding error,
e.g. the file vanished).  Each iteration of the encoding loop re-reads the
file and decodes it; a `UnicodeDecodeError` means "try the next encoding",
any other exception is wrapped and raised as `OSError`.  The decoders for
utf-8, utf-8-sig, cp1252 and iso-8859-1 are opaque (the theorem holds for
*every* behaviour of theirs); latin-1 is total by definition of the codec:
every byte maps to the Unicode code point of the same value. -/

inductive SRTResult where
  | ok (content : String)
  | osError
  | multiEncodingError
deriving DecidableEq

inductive EncodingName where
  | utf8 | utf8sig | latin1 | cp1252 | iso88591

structure Decoders where
  utf8 : List (Fin 256) → Option String
  utf8sig : List (Fin 256) → Option String
  cp1252 : List (Fin 256) → Option String
  iso88591 : List (Fin 256) → Option String

/-- Latin-1 decoding: byte `b` becomes the character with code point `b`.
Total: it succeeds on every byte sequence. -/
def latin1Decode (bs : List (Fin 256)) : String :=
  String.mk (bs.map (fun b => Char.ofNat b.val))

def decodeWith (d : Decoders) : EncodingName → List (Fin 256) → Option String
  | .utf8 => d.utf8
  | .utf8sig => d.utf8sig
  | .latin1 => fun bs => some (latin1Decode bs)
  | .cp1252 => d.cp1252
  | .iso88591 => d.iso88591

/-- `encodings = ["utf-8", "utf-8-sig", "latin-1", "cp1252", "iso-8859-1"]`. -/
def encodings : List EncodingName :=
  [.utf8, .utf8sig, .latin1, .cp1252, .iso88591]

/-- The `for encoding in encodings` loop: read the file (a non-decoding
failure raises `OSError`), try to decode (a decode failure continues with the
next encoding); an exhausted list raises the final multi-encoding
`UnicodeDecodeError`. -/
def tryEncodings (d : Decoders) (file : Option (List (Fin 256))) :
    List EncodingName → SRTResult
  | [] => .multiEncodingError
  | e :: rest =>
      match file with
      | none => .osError
      | some bs =>
          match decodeWith d e bs with
          | some s => .ok s
          | none => tryEncodings d file rest

/-- `safe_read_text`: return the cached content if the `FileCache` has a
valid entry, else run the encoding loop. -/
def safe_read_text (cached : Option String) (d : Decoders)
    (file : Option (List (Fin 256))) : SRTResult :=
  match cached with
  | some s => .ok s
  | none => tryEncodings d file encodings

/-- C10: the terminal multi-encoding `UnicodeDecodeError` branch is
unreachable: because latin-1 appears in the attempted-encodings list and
latin-1 decoding succeeds on every byte sequence, `safe_read_text` — for every
cache state, every behaviour of the other decoders and every file — never
returns it; whenever the file's bytes can be read it returns a string, and
otherwise it raises the `OSError` from the non-decoding read failure. -/
theorem safe_read_text_no_multi_encoding_error (cached : Option String)
    (d : Decoders) (file : Option (List (Fin 256))) :
    safe_read_text cached d file ≠ .multiEncodingError ∧
    (∀ bs, file = some bs → ∃ s, safe_read_text cached d file = .ok s) ∧
    (cached = none → file = none →
      safe_read_text cached d file = .osError) := by
  have hmain : ∀ bs, ∃ s, tryEncodings d (some bs) encodings = .ok s := by
    intro bs
    cases h1 : d.utf8 bs with
    | some s => exact ⟨s, by simp [encodings, tryEncodings, decodeWith, h1]⟩
    | none =>
      cases h2 : d.utf8sig bs with
      | some s =>
        exact ⟨s, by simp [encodings, tryEncodings, decodeWith, h1, h2]⟩
      | none =>
        exact ⟨latin1Decode bs,
          by simp [encodings, tryEncodings, decodeWith, h1, h2]⟩
  refine ⟨?_, ?_, ?_⟩
  · cases hc : cached with
    | some s => simp [safe_read_text]
    | none =>
      cases hf : file with
      | some bs =>
        obtain ⟨s, hs⟩ := hmain bs
        simp [safe_read_text, hs]
      | none => simp [safe_read_text, encodings, tryEncodings]
  · intro bs hf
    subst hf
    cases hc : cached with
    | some s => exact ⟨s, by simp [safe_read_text]⟩
    | none =>
      obtain ⟨s, hs⟩ := hmain bs
      exact ⟨s, by simp [safe_read_text, hs]⟩
  · intro hc hf
    subst hc
    subst hf
    simp [safe_read_text, encodings, tryEncodings]

/-- Witness for C10: decoders that always fail, an empty cache, a readable
two-byte file — latin-1 still decodes it. -/
theorem safe_read_text_no_multi_encoding_error_witness :
    safe_read_text none
        ⟨fun _ => none, fun _ => none, fun _ => none, fun _ => none⟩
        (some [65, 255]) ≠ .multiEncodingError ∧
    (∀ bs, (some [65, 255] : Option (List (Fin 256))) = some bs →
      ∃ s, safe_read_text none
          ⟨fun _ => none, fun _ => none, fun _ => none, fun _ => none⟩
          (some [65, 255]) = .ok s) ∧
    ((none : Option String) = none →
      (some [65, 255] : Option (List (Fin 256))) = none →
      safe_read_text none
          ⟨fun _ => none, fun _ => none, fun _ => none, fun _ => none⟩
          (some [65, 255]) = .osError) :=
  safe_read_text_no_multi_encoding_error none
    ⟨fun _ => none, fun _ => none, fun _ => none, fun _ => none⟩
    (some [65, 255])
